import Mathlib

/-!
Shallow embedding of the core of `ai_diplomacy/clients.py`: the JSON decode
cascade of `_extract_moves`, the order validator `_validate_orders` with its
`fallback_orders` synthesizer, the message validation loop of
`get_conversation_reply`, and the visibility filter
`get_visible_messages_for_power`.  Each Lean definition is translated from the
Python source; theorems at the end settle the specification claims.
-/

set_option maxRecDepth 4096

/-! ## JSON values and a model of `json.loads`

Numbers keep their lexeme so that equality of parses is exact. -/

/-- JSON values as produced by `json.loads`. -/
inductive JValue where
  | null
  | jbool (b : Bool)
  | jnum (lexeme : String)
  | jstr (s : String)
  | jarr (items : List JValue)
  | jobj (fields : List (String × JValue))

/-- Whitespace accepted between JSON tokens by `json.loads`. -/
def jsonWs (c : Char) : Bool :=
  c == ' ' || c == '\t' || c == '\n' || c == '\r'

/-- Value of one hexadecimal digit. -/
def hexVal (c : Char) : Option Nat :=
  if '0' ≤ c ∧ c ≤ '9' then some (c.toNat - '0'.toNat)
  else if 'a' ≤ c ∧ c ≤ 'f' then some (c.toNat - 'a'.toNat + 10)
  else if 'A' ≤ c ∧ c ≤ 'F' then some (c.toNat - 'A'.toNat + 10)
  else none

/-- Prepend a decoded character to the pending string-body result. -/
def pushChar (d : Char) : Option (List Char × List Char) → Option (List Char × List Char)
  | some (cs, r) => some (d :: cs, r)
  | none => none

/-- Body of a JSON string after the opening quote: returns the decoded
characters and the input remaining after the closing quote.  Escape handling
follows `json.loads` (a lone surrogate escape is approximated by
`Char.ofNat`'s default). -/
def parseStringBody : Nat → List Char → Option (List Char × List Char)
  | 0, _ => none
  | _ + 1, [] => none
  | fuel + 1, c :: rest =>
    if c = '"' then some ([], rest)
    else if c = '\\' then
      match rest with
      | [] => none
      | e :: rest2 =>
        if e = '"' ∨ e = '\\' ∨ e = '/' then pushChar e (parseStringBody fuel rest2)
        else if e = 'b' then pushChar (Char.ofNat 8) (parseStringBody fuel rest2)
        else if e = 'f' then pushChar (Char.ofNat 12) (parseStringBody fuel rest2)
        else if e = 'n' then pushChar (Char.ofNat 10) (parseStringBody fuel rest2)
        else if e = 'r' then pushChar (Char.ofNat 13) (parseStringBody fuel rest2)
        else if e = 't' then pushChar (Char.ofNat 9) (parseStringBody fuel rest2)
        else if e = 'u' then
          match rest2 with
          | h1 :: h2 :: h3 :: h4 :: rest3 =>
            match hexVal h1, hexVal h2, hexVal h3, hexVal h4 with
            | some a, some b, some c2, some d =>
              pushChar (Char.ofNat (((a * 16 + b) * 16 + c2) * 16 + d))
                (parseStringBody fuel rest3)
            | _, _, _, _ => none
          | _ => none
        else none
    else if c.toNat < 32 then none
    else pushChar c (parseStringBody fuel rest)

/-- Digits taken greedily, with the remaining input. -/
def takeDigits (l : List Char) : List Char × List Char :=
  (l.takeWhile Char.isDigit, l.dropWhile Char.isDigit)

/-- Integer part of a JSON number: `0`, or a nonzero digit followed by digits. -/
def parseIntPart : List Char → Option (List Char × List Char)
  | [] => none
  | d :: rest =>
    if d = '0' then some ([d], rest)
    else if d.isDigit then
      match takeDigits rest with
      | (ds, r) => some (d :: ds, r)
    else none

/-- Optional fractional part `.digits` of a JSON number. -/
def parseFracPart (l : List Char) : Option (List Char × List Char) :=
  match l with
  | '.' :: rest =>
    match takeDigits rest with
    | ([], _) => none
    | (ds, r) => some ('.' :: ds, r)
  | _ => some ([], l)

/-- Optional exponent part of a JSON number. -/
def parseExpPart (l : List Char) : Option (List Char × List Char) :=
  match l with
  | e :: rest =>
    if e = 'e' ∨ e = 'E' then
      match rest with
      | c :: r =>
        if c = '+' ∨ c = '-' then
          match takeDigits r with
          | ([], _) => none
          | (ds, r2) => some (e :: c :: ds, r2)
        else
          match takeDigits rest with
          | ([], _) => none
          | (ds, r2) => some (e :: ds, r2)
      | [] => none
    else some ([], l)
  | [] => some ([], l)

/-- Lexeme of a JSON number with the remaining input. -/
def parseNumber (l : List Char) : Option (List Char × List Char) :=
  match l with
  | c :: r =>
    if c = '-' then
      match parseIntPart r with
      | none => none
      | some (ip, l2) =>
        match parseFracPart l2 with
        | none => none
        | some (fp, l3) =>
          match parseExpPart l3 with
          | none => none
          | some (ep, l4) => some (c :: (ip ++ fp ++ ep), l4)
    else
      match parseIntPart l with
      | none => none
      | some (ip, l2) =>
        match parseFracPart l2 with
        | none => none
        | some (fp, l3) =>
          match parseExpPart l3 with
          | none => none
          | some (ep, l4) => some (ip ++ fp ++ ep, l4)
  | [] => none

/-- Strip a literal keyword from the front of the input, if present. -/
def stripKeyword : List Char → List Char → Option (List Char)
  | [], l => some l
  | p :: ps, c :: l => if c = p then stripKeyword ps l else none
  | _ :: _, [] => none

mutual

/-- One JSON value (leading whitespace allowed), as `json.loads` reads it;
`NaN`, `Infinity` and `-Infinity` are accepted like Python's decoder. -/
def parseValue : Nat → List Char → Option (JValue × List Char)
  | 0, _ => none
  | fuel + 1, l =>
    let l1 := l.dropWhile jsonWs
    match l1 with
    | [] => none
    | c :: rest =>
      if c = Char.ofNat 123 then parseObjStart fuel rest
      else if c = '[' then parseArrStart fuel rest
      else if c = '"' then
        match parseStringBody (rest.length + 1) rest with
        | some (cs, r) => some (JValue.jstr (String.mk cs), r)
        | none => none
      else
        match stripKeyword ['t', 'r', 'u', 'e'] l1 with
        | some r => some (JValue.jbool true, r)
        | none =>
        match stripKeyword ['f', 'a', 'l', 's', 'e'] l1 with
        | some r => some (JValue.jbool false, r)
        | none =>
        match stripKeyword ['n', 'u', 'l', 'l'] l1 with
        | some r => some (JValue.null, r)
        | none =>
        match stripKeyword ['N', 'a', 'N'] l1 with
        | some r => some (JValue.jnum "NaN", r)
        | none =>
        match stripKeyword ['I', 'n', 'f', 'i', 'n', 'i', 't', 'y'] l1 with
        | some r => some (JValue.jnum "Infinity", r)
        | none =>
        match stripKeyword ['-', 'I', 'n', 'f', 'i', 'n', 'i', 't', 'y'] l1 with
        | some r => some (JValue.jnum "-Infinity", r)
        | none =>
        match parseNumber l1 with
        | some (lex, r) => some (JValue.jnum (String.mk lex), r)
        | none => none

/-- Array contents right after `[`. -/
def parseArrStart : Nat → List Char → Option (JValue × List Char)
  | 0, _ => none
  | fuel + 1, l =>
    let l1 := l.dropWhile jsonWs
    match l1 with
    | c :: rest =>
      if c = ']' then some (JValue.jarr [], rest)
      else
        match parseValue fuel l1 with
        | some (v, r) => parseArrRest fuel [v] r
        | none => none
    | [] => none

/-- Array contents after at least one element. -/
def parseArrRest : Nat → List JValue → List Char → Option (JValue × List Char)
  | 0, _, _ => none
  | fuel + 1, acc, l =>
    let l1 := l.dropWhile jsonWs
    match l1 with
    | c :: rest =>
      if c = ']' then some (JValue.jarr acc, rest)
      else if c = ',' then
        match parseValue fuel rest with
        | some (v, r) => parseArrRest fuel (acc ++ [v]) r
        | none => none
      else none
    | [] => none

/-- Object contents right after the opening brace. -/
def parseObjStart : Nat → List Char → Option (JValue × List Char)
  | 0, _ => none
  | fuel + 1, l =>
    let l1 := l.dropWhile jsonWs
    match l1 with
    | c :: rest =>
      if c = Char.ofNat 125 then some (JValue.jobj [], rest)
      else if c = '"' then
        match parseStringBody (rest.length + 1) rest with
        | some (kcs, r1) => parseObjValue fuel (String.mk kcs) [] r1
        | none => none
      else none
    | [] => none

/-- Object member value after its key. -/
def parseObjValue : Nat → String → List (String × JValue) → List Char →
    Option (JValue × List Char)
  | 0, _, _, _ => none
  | fuel + 1, key, acc, l =>
    let l1 := l.dropWhile jsonWs
    match l1 with
    | c :: rest =>
      if c = ':' then
        match parseValue fuel rest with
        | some (v, r) => parseObjRest fuel (acc ++ [(key, v)]) r
        | none => none
      else none
    | [] => none

/-- Object contents after at least one member. -/
def parseObjRest : Nat → List (String × JValue) → List Char → Option (JValue × List Char)
  | 0, _, _ => none
  | fuel + 1, acc, l =>
    let l1 := l.dropWhile jsonWs
    match l1 with
    | c :: rest =>
      if c = Char.ofNat 125 then some (JValue.jobj acc, rest)
      else if c = ',' then
        match rest.dropWhile jsonWs with
        | d :: rest2 =>
          if d = '"' then
            match parseStringBody (rest2.length + 1) rest2 with
            | some (kcs, r1) => parseObjValue fuel (String.mk kcs) acc r1
            | none => none
          else none
        | [] => none
      else none
    | [] => none

end

/-- Model of `json.loads`: one JSON document, nothing but whitespace after it. -/
def jsonParse (s : String) : Option JValue :=
  match parseValue (s.data.length + 1) s.data with
  | some (v, rest) => if rest.dropWhile jsonWs = [] then some v else none
  | none => none

example : jsonParse "\x7b\"orders\": [\"A PAR H\"]\x7d" =
    some (JValue.jobj [("orders", JValue.jarr [JValue.jstr "A PAR H"])]) := rfl

example : jsonParse "\x7b\"orders\": [\"A PAR H\",]\x7d" = none := rfl

/-! ## Repair passes of `_extract_moves`

`stripTrailingCommas` models `re.sub(r",\s*([\}\]])", r"\1", text)`,
`quoteNormalize` models `text.replace("'", '"')`, and the comment scanner
models the per-line loop that removes `//` comments outside quotes. -/

/-- Characters matched by `\s` in Python regular expressions. -/
def isRegexWs (c : Char) : Bool :=
  c == ' ' || c == '\t' || c == '\n' || c == '\r' || c == Char.ofNat 11 || c == Char.ofNat 12

/-- The single-quote character (apostrophe). -/
def squote : Char := Char.ofNat 39

/-- The closing-brace character. -/
def rbrace : Char := Char.ofNat 125

/-- Left-to-right non-overlapping substitution of `,\s*([\}\]])` by the
captured closer, as `re.sub` performs it. -/
def stripTCAux : Nat → List Char → List Char
  | 0, l => l
  | _ + 1, [] => []
  | fuel + 1, c :: rest =>
    if c = ',' then
      match rest.dropWhile isRegexWs with
      | d :: rest2 =>
        if d = rbrace ∨ d = ']' then d :: stripTCAux fuel rest2
        else c :: stripTCAux fuel rest
      | [] => c :: stripTCAux fuel rest
    else c :: stripTCAux fuel rest

/-- Removal of trailing commas before closing brackets and braces. -/
def stripTrailingCommas (s : String) : String :=
  String.mk (stripTCAux (s.data.length + 1) s.data)

/-- Quote normalization of the repair pass: every single quote becomes a
double quote. -/
def quoteNormalize (s : String) : String :=
  String.mk (s.data.map (fun c => if c = squote then '"' else c))

/-- State transition of the comment scanner: `(escape_next, in_quotes)` after
consuming the given characters. -/
def scanState : List Char → Bool × Bool → Bool × Bool
  | [], st => st
  | c :: rest, (esc, inq) =>
    if esc then scanState rest (false, inq)
    else if c = '\\' then scanState rest (true, inq)
    else scanState rest (false, if c = '"' then !inq else inq)

/-- Position of the first `//` outside quotes on one line, tracking
`escape_next` and `in_quotes` exactly as the Python loop does. -/
def findComment : List Char → Bool → Bool → Nat → Option Nat
  | [], _, _, _ => none
  | c :: rest, esc, inq, i =>
    if esc then findComment rest false inq (i + 1)
    else if c = '\\' then findComment rest true inq (i + 1)
    else
      if (if c = '"' then !inq else inq) = false ∧ c = '/' ∧ rest.head? = some '/' then some i
      else findComment rest false (if c = '"' then !inq else inq) (i + 1)

/-- Whitespace stripped by Python's `str.strip` and `str.rstrip` (the ASCII
cases). -/
def pyWs (c : Char) : Bool :=
  c == ' ' || c == '\t' || c == '\n' || c == '\r' || c == Char.ofNat 11 || c == Char.ofNat 12

/-- Trailing whitespace removed, as `str.rstrip` does. -/
def rstripChars (l : List Char) : List Char :=
  (l.reverse.dropWhile pyWs).reverse

/-- One line after comment removal: truncated before the first `//` outside
quotes and right-stripped, otherwise unchanged. -/
def cleanLine (line : List Char) : List Char :=
  match findComment line false false 0 with
  | some i => rstripChars (line.take i)
  | none => line

/-- Split at every newline, as Python's `text.split("\n")`. -/
def splitOnNl : List Char → List (List Char)
  | [] => [[]]
  | c :: rest =>
    if c = '\n' then [] :: splitOnNl rest
    else
      match splitOnNl rest with
      | [] => [[c]]
      | p :: ps => (c :: p) :: ps

/-- Join with newlines, as Python's `"\n".join(lines)`. -/
def joinNl : List (List Char) → List Char
  | [] => []
  | [p] => p
  | p :: q :: ps => p ++ '\n' :: joinNl (q :: ps)

/-- The comment-removal step of the comment-stripping pass. -/
def stripComments (s : String) : String :=
  String.mk (joinNl ((splitOnNl s.data).map cleanLine))

/-- Lookup in a decoded JSON object; a duplicated key resolves to its last
binding, as in a Python dict built by `json.loads`. -/
def dictGet (fields : List (String × JValue)) (key : String) : Option JValue :=
  fields.foldl (fun acc f => if f.1 = key then some f.2 else acc) none

/-- Model of `data.get("orders", None)`.  On a non-object the source would
raise `AttributeError`; captured blocks are brace-delimited, so a successful
parse there is always an object and that branch is unreachable. -/
def getOrders : JValue → Option JValue
  | JValue.jobj fields => dictGet fields "orders"
  | _ => none

/-! ### Bracket fallback: `["']orders["']\s*:\s*\[([^\]]*)\]` plus
`ast.literal_eval` on a flat list of scalar literals. -/

/-- Attempt of the bracket pattern at the head of the input; on success the
captured group (the characters between `[` and the first `]`). -/
def matchOrdersAt (l : List Char) : Option (List Char) :=
  match l with
  | q1 :: 'o' :: 'r' :: 'd' :: 'e' :: 'r' :: 's' :: q2 :: rest =>
    if (q1 = '"' ∨ q1 = squote) ∧ (q2 = '"' ∨ q2 = squote) then
      match rest.dropWhile isRegexWs with
      | ':' :: rest2 =>
        match rest2.dropWhile isRegexWs with
        | '[' :: rest3 =>
          match rest3.dropWhile (fun c => !(c == ']')) with
          | ']' :: _ => some (rest3.takeWhile (fun c => !(c == ']')))
          | _ => none
        | _ => none
      | _ => none
    else none
  | _ => none

/-- Leftmost match of the bracket pattern, as `re.search` finds it. -/
def findBracket : List Char → Option (List Char)
  | [] => none
  | c :: rest =>
    match matchOrdersAt (c :: rest) with
    | some cap => some cap
    | none => findBracket rest

/-- Whitespace stripped from both ends, as Python's `str.strip`. -/
def stripPy (l : List Char) : List Char :=
  rstripChars (l.dropWhile pyWs)

/-- Body of a Python string literal with quote character `q`; an unknown
escape keeps the backslash, as Python string literals do. -/
def litStringBody : Nat → Char → List Char → Option (List Char × List Char)
  | 0, _, _ => none
  | _ + 1, _, [] => none
  | fuel + 1, q, c :: rest =>
    if c = q then some ([], rest)
    else if c = '\n' then none
    else if c = '\\' then
      match rest with
      | [] => none
      | e :: rest2 =>
        if e = '\\' ∨ e = squote ∨ e = '"' then pushChar e (litStringBody fuel q rest2)
        else if e = 'n' then pushChar (Char.ofNat 10) (litStringBody fuel q rest2)
        else if e = 't' then pushChar (Char.ofNat 9) (litStringBody fuel q rest2)
        else if e = 'r' then pushChar (Char.ofNat 13) (litStringBody fuel q rest2)
        else pushChar c (pushChar e (litStringBody fuel q rest2))
    else pushChar c (litStringBody fuel q rest)

/-- One scalar Python literal: a string, `True`, `False`, `None`, or a
number (nested containers are outside the modeled fragment; the capture group
of the bracket pattern cannot contain `]`, so a nested list never evaluates
in the source either). -/
def parseLitElem (l : List Char) : Option (JValue × List Char) :=
  let l1 := l.dropWhile pyWs
  match l1 with
  | [] => none
  | c :: rest =>
    if c = '"' ∨ c = squote then
      match litStringBody (rest.length + 1) c rest with
      | some (cs, r) => some (JValue.jstr (String.mk cs), r)
      | none => none
    else
      match stripKeyword ['T', 'r', 'u', 'e'] l1 with
      | some r => some (JValue.jbool true, r)
      | none =>
      match stripKeyword ['F', 'a', 'l', 's', 'e'] l1 with
      | some r => some (JValue.jbool false, r)
      | none =>
      match stripKeyword ['N', 'o', 'n', 'e'] l1 with
      | some r => some (JValue.null, r)
      | none =>
      match parseNumber l1 with
      | some (lex, r) => some (JValue.jnum (String.mk lex), r)
      | none => none

/-- Elements of a Python list literal after `[`; a trailing comma is
accepted, as `ast.literal_eval` accepts it. -/
def parseLitItems : Nat → List JValue → List Char → Option (List JValue × List Char)
  | 0, _, _ => none
  | fuel + 1, acc, l =>
    let l1 := l.dropWhile pyWs
    match l1 with
    | c :: _ =>
      if c = ']' then some (acc, l1.tail)
      else
        match parseLitElem l1 with
        | some (v, r) =>
          match r.dropWhile pyWs with
          | d :: r2 =>
            if d = ',' then parseLitItems fuel (acc ++ [v]) r2
            else if d = ']' then some (acc ++ [v], r2)
            else none
          | [] => none
        | none => none
    | [] => none

/-- Model of `ast.literal_eval` on a flat list of scalar literals. -/
def literalEvalList (s : String) : Option (List JValue) :=
  match s.data.dropWhile pyWs with
  | c :: rest =>
    if c = '[' then
      match parseLitItems (s.data.length + 1) [] rest with
      | some (items, r) => if r.dropWhile pyWs = [] then some items else none
      | none => none
    else none
  | [] => none

/-- The bracket fallback of `_extract_moves`: capture the list after an
`orders` key and evaluate it as a literal list. -/
def bracketFallback (jsonText : String) : Option JValue :=
  match findBracket jsonText.data with
  | some cap =>
    match literalEvalList (String.mk ('[' :: (stripPy cap ++ [']']))) with
    | some items => some (JValue.jarr items)
    | none => none
  | none => none

/-- Decode stages of `_extract_moves` on the captured block: direct decode,
repair pass (trailing commas stripped, quotes normalized), comment-stripping
pass (on the original block, then trailing commas stripped again), bracket
fallback. -/
def decode_orders (jsonText : String) : Option JValue :=
  match jsonParse jsonText with
  | some v => getOrders v
  | none =>
    match jsonParse (quoteNormalize (stripTrailingCommas jsonText)) with
    | some v => getOrders v
    | none =>
      match jsonParse (stripTrailingCommas (stripComments jsonText)) with
      | some v => getOrders v
      | none => bracketFallback jsonText

example : stripTrailingCommas "\x7b\"orders\": [\"A PAR H\",]\x7d" =
    "\x7b\"orders\": [\"A PAR H\"]\x7d" := rfl

example : decode_orders "\x7b\"orders\": [\"A PAR H\",]\x7d" =
    some (JValue.jarr [JValue.jstr "A PAR H"]) := rfl

/-! ## Order validation: `_validate_orders` and `fallback_orders`

The proposals reach `_validate_orders` as an arbitrary decoded Python value:
`Payload.nonList` stands for any non-list value (the `isinstance` guard), and
a list may hold non-string entries (`PyVal.other`), which never match a legal
order and are collected among the invalid moves. -/

/-- An element of a decoded proposal list: a string, or any non-string
value. -/
inductive PyVal where
  | str (s : String)
  | other (tag : Nat)
deriving DecidableEq

/-- The decoded payload handed to `_validate_orders`: a list, or any
non-list value. -/
inductive Payload where
  | list (items : List PyVal)
  | nonList (tag : Nat)
deriving DecidableEq

/-- The legality test of `_validate_orders`:
`any(move_str in loc_orders for loc_orders in possible_orders.values())`. -/
def moveIsLegal (move : String) (possible_orders : List (String × List String)) : Bool :=
  possible_orders.any (fun p => p.2.contains move)

/-- Words of a character list: Python's `str.split()` splits on whitespace
runs and yields no empty parts. -/
def wordsAux : Nat → List Char → List String
  | 0, _ => []
  | fuel + 1, l =>
    match l.dropWhile Char.isWhitespace with
    | [] => []
    | c :: rest =>
      String.mk ((c :: rest).takeWhile (fun d => !d.isWhitespace)) ::
        wordsAux fuel ((c :: rest).dropWhile (fun d => !d.isWhitespace))

/-- Python's `str.split()`. -/
def splitWs (s : String) : List String :=
  wordsAux (s.data.length + 1) s.data

/-- Python's `parts[1][:3]` slice: the first three characters. -/
def take3 (s : String) : String :=
  String.mk (s.data.take 3)

/-- The covered location of an accepted move: `parts[1][:3]` when the move
has at least two whitespace-separated parts. -/
def locOf (move : String) : Option String :=
  match splitWs move with
  | _ :: second :: _ => some (take3 second)
  | _ => none

/-- Python's `o.endswith("H")`: the last character is `H`. -/
def endsWithH (o : String) : Bool :=
  o.data.getLast? == some 'H'

/-- The fallback choice for one location's order list:
`hold_candidates[0] if hold_candidates else orders_list[0]` (the empty-list
default is never reached; every caller guards on a non-empty list). -/
def chooseFallback (orders_list : List String) : String :=
  match orders_list.filter (fun o => endsWithH o) with
  | h :: _ => h
  | [] =>
    match orders_list with
    | x :: _ => x
    | [] => ""

/-- `fallback_orders`: one fallback action per location with a non-empty
order list, in mapping order. -/
def fallback_orders (possible_orders : List (String × List String)) : List String :=
  possible_orders.filterMap (fun p =>
    if p.2.isEmpty then none else some (chooseFallback p.2))

/-- Accumulator of the proposal loop of `_validate_orders`. -/
structure LoopState where
  validated : List String
  invalid : List PyVal
  used_locs : List String
deriving DecidableEq

/-- One iteration of the proposal loop: a legal string is appended to
`validated` and marks its location used; anything else is appended to the
invalid moves. -/
def validateStep (possible_orders : List (String × List String))
    (st : LoopState) (m : PyVal) : LoopState :=
  match m with
  | PyVal.str s =>
    if moveIsLegal s possible_orders then
      { validated := st.validated ++ [s]
        invalid := st.invalid
        used_locs :=
          match locOf s with
          | some loc => st.used_locs ++ [loc]
          | none => st.used_locs }
    else { st with invalid := st.invalid ++ [m] }
  | PyVal.other _ => { st with invalid := st.invalid ++ [m] }

/-- The fill-missing loop: a hold-preferring fallback for every location with
a non-empty order list whose location was not covered. -/
def fillMissing (used_locs : List String)
    (possible_orders : List (String × List String)) : List String :=
  possible_orders.filterMap (fun p =>
    if !used_locs.contains p.1 && !p.2.isEmpty then some (chooseFallback p.2) else none)

/-- `_validate_orders`: validated moves plus synthesized fallbacks, and the
invalid moves found. -/
def validate_orders (moves : Payload)
    (possible_orders : List (String × List String)) : List String × List PyVal :=
  match moves with
  | Payload.nonList _ => (fallback_orders possible_orders, [])
  | Payload.list ms =>
    let st := ms.foldl (validateStep possible_orders) ⟨[], [], []⟩
    let validated := st.validated ++ fillMissing st.used_locs possible_orders
    if validated = [] ∧ st.invalid = [] then (fallback_orders possible_orders, [])
    else if validated = [] then (fallback_orders possible_orders, st.invalid)
    else (validated, st.invalid)

/-- The accepted proposals, in proposal order. -/
def acceptedMoves (possible_orders : List (String × List String))
    (ms : List PyVal) : List String :=
  ms.filterMap (fun m =>
    match m with
    | PyVal.str s => if moveIsLegal s possible_orders then some s else none
    | PyVal.other _ => none)

/-- The rejected proposals, in proposal order. -/
def rejectedMoves (possible_orders : List (String × List String))
    (ms : List PyVal) : List PyVal :=
  ms.filter (fun m =>
    match m with
    | PyVal.str s => !moveIsLegal s possible_orders
    | PyVal.other _ => true)

/-- The locations marked used by the accepted proposals. -/
def coveredLocs (possible_orders : List (String × List String))
    (ms : List PyVal) : List String :=
  ms.filterMap (fun m =>
    match m with
    | PyVal.str s => if moveIsLegal s possible_orders then locOf s else none
    | PyVal.other _ => none)

/-- Number of actions of a validated list that belong to one location's legal
sequence. -/
def countFor (vo : List String) (legal : List String) : Nat :=
  (vo.filter (fun a => legal.contains a)).length

/-! ## Message validation (from `get_conversation_reply`) -/

/-- A candidate structured value for a message: a dict with the optional
fields the validator inspects, or any non-dict value. -/
inductive PMsg where
  | dict (message_type : Option String) (content : Option String) (recipient : Option String)
  | nonDict (tag : Nat)
deriving DecidableEq

/-- One iteration of the validation loop: keep a dict having `message_type`
and `content`, unless it is a private message without `recipient`; drop
everything else. -/
def messageStep (acc : List PMsg) (msg : PMsg) : List PMsg :=
  match msg with
  | PMsg.dict (some mt) (some _) r =>
    if mt = "private" ∧ r = none then acc else acc ++ [msg]
  | _ => acc

/-- The message-validation loop of `get_conversation_reply`. -/
def validate_messages (parsed_messages : List PMsg) : List PMsg :=
  parsed_messages.foldl messageStep []

/-- Acceptance as the claim states it: a record with `message_type` and
`content`, and with `recipient` whenever the type is `private`. -/
def claimAccept : PMsg → Bool
  | PMsg.dict mt c r => mt.isSome && c.isSome && (if mt = some "private" then r.isSome else true)
  | PMsg.nonDict _ => false

/-! ## Visibility filter: `get_visible_messages_for_power` -/

/-- A transcript message with the fields the filter reads. -/
structure ChatMsg where
  sender : String
  recipient : String
  content : String
deriving DecidableEq

/-- The visibility condition of `get_visible_messages_for_power`, verbatim
from the source. -/
def visiblePred (power_name : String) (m : ChatMsg) : Prop :=
  m.recipient = "ALL" ∨ m.recipient = "GLOBAL" ∨
    m.sender = power_name ∨ m.recipient = power_name

instance (power_name : String) : DecidablePred (visiblePred power_name) := fun m => by
  unfold visiblePred
  infer_instance

/-- The visibility filter: the chronological subset of messages the power can
see. -/
def get_visible_messages_for_power (conversation_messages : List ChatMsg)
    (power_name : String) : List ChatMsg :=
  conversation_messages.foldl
    (fun visible msg => if visiblePred power_name msg then visible ++ [msg] else visible)
    []

/-- Concrete legal-action set of the spec's worked scenario. -/
def demoPO : List (String × List String) :=
  [("PAR", ["A PAR H", "A PAR - BUR"]), ("MAR", ["A MAR H"])]

example :
    validate_orders (Payload.list [PyVal.str "A PAR - BUR", PyVal.str "A MAR - SPA"]) demoPO =
      (["A PAR - BUR", "A MAR H"], [PyVal.str "A MAR - SPA"]) := by decide

example : validate_orders (Payload.list []) demoPO = (["A PAR H", "A MAR H"], []) := by decide

example :
    validate_messages [PMsg.dict (some "private") (some "hi") none,
      PMsg.dict (some "public") (some "yo") none] =
      [PMsg.dict (some "public") (some "yo") none] := by decide

/-! ## Helper lemmas -/

lemma foldl_validateStep (po : List (String × List String)) :
    ∀ (ms : List PyVal) (st : LoopState),
      ms.foldl (validateStep po) st =
        ⟨st.validated ++ acceptedMoves po ms,
          st.invalid ++ rejectedMoves po ms,
          st.used_locs ++ coveredLocs po ms⟩ := by
  intro ms
  induction ms with
  | nil =>
    intro st
    simp [acceptedMoves, rejectedMoves, coveredLocs]
  | cons m t ih =>
    intro st
    rw [List.foldl_cons, ih]
    cases m with
    | str s =>
      cases h : moveIsLegal s po with
      | true =>
        cases hl : locOf s with
        | some loc =>
          simp [validateStep, h, hl, acceptedMoves, rejectedMoves, coveredLocs,
            List.filterMap_cons, List.filter_cons, List.append_assoc]
        | none =>
          simp [validateStep, h, hl, acceptedMoves, rejectedMoves, coveredLocs,
            List.filterMap_cons, List.filter_cons, List.append_assoc]
      | false =>
        simp [validateStep, h, acceptedMoves, rejectedMoves, coveredLocs,
          List.filterMap_cons, List.filter_cons, List.append_assoc]
    | other tag =>
      simp [validateStep, acceptedMoves, rejectedMoves, coveredLocs,
        List.filterMap_cons, List.filter_cons, List.append_assoc]

lemma chooseFallback_mem (l : List String) (h : l ≠ []) : chooseFallback l ∈ l := by
  cases hf : l.filter (fun o => endsWithH o) with
  | cons a t =>
    have ha : a ∈ l.filter (fun o => endsWithH o) := by
      rw [hf]; exact List.mem_cons_self a t
    have he : chooseFallback l = a := by unfold chooseFallback; rw [hf]
    rw [he]
    exact List.mem_of_mem_filter ha
  | nil =>
    cases l with
    | nil => exact absurd rfl h
    | cons x xs =>
      have he : chooseFallback (x :: xs) = x := by unfold chooseFallback; rw [hf]
      rw [he]
      exact List.mem_cons_self x xs

lemma mem_fallback_orders {a : String} {po : List (String × List String)}
    (h : a ∈ fallback_orders po) : ∃ p ∈ po, a ∈ p.2 := by
  unfold fallback_orders at h
  rw [List.mem_filterMap] at h
  obtain ⟨p, hp, hf⟩ := h
  by_cases he : p.2.isEmpty = true
  · rw [if_pos he] at hf
    exact absurd hf (by simp)
  · rw [if_neg he] at hf
    refine ⟨p, hp, ?_⟩
    rw [← Option.some.inj hf]
    exact chooseFallback_mem p.2 (by simpa using he)

lemma mem_fillMissing {a : String} {used : List String} {po : List (String × List String)}
    (h : a ∈ fillMissing used po) : ∃ p ∈ po, a ∈ p.2 := by
  unfold fillMissing at h
  rw [List.mem_filterMap] at h
  obtain ⟨p, hp, hf⟩ := h
  by_cases hc : (!used.contains p.1 && !p.2.isEmpty) = true
  · rw [if_pos hc] at hf
    refine ⟨p, hp, ?_⟩
    rw [← Option.some.inj hf]
    simp only [Bool.and_eq_true, Bool.not_eq_true'] at hc
    exact chooseFallback_mem p.2 (by simpa using hc.2)
  · rw [if_neg hc] at hf
    exact absurd hf (by simp)

lemma mem_acceptedMoves {a : String} {po : List (String × List String)} {ms : List PyVal}
    (h : a ∈ acceptedMoves po ms) : moveIsLegal a po = true := by
  unfold acceptedMoves at h
  rw [List.mem_filterMap] at h
  obtain ⟨m, _, hf⟩ := h
  cases m with
  | str s =>
    by_cases hl : moveIsLegal s po
    · simp only [hl, if_true, Option.some.injEq] at hf
      rw [← hf]; exact hl
    · simp [hl] at hf
  | other tag => simp at hf

lemma legal_mem {a : String} {po : List (String × List String)}
    (h : moveIsLegal a po = true) : ∃ p ∈ po, a ∈ p.2 := by
  unfold moveIsLegal at h
  rw [List.any_eq_true] at h
  obtain ⟨p, hp, hc⟩ := h
  exact ⟨p, hp, by simpa using hc⟩

lemma fillMissing_nil (po : List (String × List String)) :
    fillMissing [] po = fallback_orders po := by
  unfold fillMissing fallback_orders
  induction po with
  | nil => rfl
  | cons p ps ih =>
    by_cases he : p.2.isEmpty <;> simp [List.filterMap_cons, he, ih]

lemma fallback_eq_filter_map (po : List (String × List String)) :
    fallback_orders po =
      (po.filter (fun p => !p.2.isEmpty)).map (fun p => chooseFallback p.2) := by
  induction po with
  | nil => rfl
  | cons p ps ih =>
    cases hpe : p.2.isEmpty with
    | true =>
      have h1 : fallback_orders (p :: ps) = fallback_orders ps := by
        unfold fallback_orders
        rw [List.filterMap_cons, hpe]
        rfl
      have h2 : (p :: ps).filter (fun q => !q.2.isEmpty) = ps.filter (fun q => !q.2.isEmpty) := by
        rw [List.filter_cons, hpe]
        rfl
      rw [h1, h2, ih]
    | false =>
      have h1 : fallback_orders (p :: ps) = chooseFallback p.2 :: fallback_orders ps := by
        unfold fallback_orders
        rw [List.filterMap_cons, hpe]
        rfl
      have h2 : (p :: ps).filter (fun q => !q.2.isEmpty) = p :: ps.filter (fun q => !q.2.isEmpty) := by
        rw [List.filter_cons, hpe]
        rfl
      rw [h1, h2, List.map_cons, ih]

lemma filter_head?_eq_find? {α : Type} (p : α → Bool) :
    ∀ l : List α, (l.filter p).head? = l.find? p := by
  intro l
  induction l with
  | nil => rfl
  | cons a t ih =>
    by_cases h : p a <;> simp [List.filter_cons, List.find?_cons, h, ih]

lemma foldl_if_append {α : Type} (P : α → Prop) [DecidablePred P] :
    ∀ (l acc : List α),
      l.foldl (fun a x => if P x then a ++ [x] else a) acc =
        acc ++ l.filter (fun x => decide (P x)) := by
  intro l
  induction l with
  | nil => intro acc; simp
  | cons x t ih =>
    intro acc
    rw [List.foldl_cons]
    by_cases h : P x
    · rw [if_pos h, ih, List.filter_cons, if_pos (by simpa using h), List.append_assoc]
      rfl
    · rw [if_neg h, ih, List.filter_cons, if_neg (by simpa using h)]

lemma visible_eq_filter (T : List ChatMsg) (P : String) :
    get_visible_messages_for_power T P =
      T.filter (fun m => decide (visiblePred P m)) := by
  unfold get_visible_messages_for_power
  rw [foldl_if_append (visiblePred P)]
  rfl

lemma messageStep_eq (acc : List PMsg) (msg : PMsg) :
    messageStep acc msg = if claimAccept msg then acc ++ [msg] else acc := by
  cases msg with
  | nonDict tag => simp [messageStep, claimAccept]
  | dict mt c r =>
    cases mt with
    | none => simp [messageStep, claimAccept]
    | some mt =>
      cases c with
      | none => simp [messageStep, claimAccept]
      | some c =>
        by_cases hmt : mt = "private"
        · subst hmt
          cases r with
          | none => simp [messageStep, claimAccept]
          | some r => simp [messageStep, claimAccept]
        · simp [messageStep, claimAccept, hmt]

lemma foldl_messageStep :
    ∀ (l acc : List PMsg), l.foldl messageStep acc = acc ++ l.filter claimAccept := by
  intro l
  induction l with
  | nil => intro acc; simp
  | cons m t ih =>
    intro acc
    rw [List.foldl_cons, messageStep_eq]
    by_cases h : claimAccept m
    · rw [if_pos h, ih, List.filter_cons, if_pos h, List.append_assoc]
      rfl
    · rw [if_neg h, ih, List.filter_cons, if_neg h]

lemma mapNoQuote :
    ∀ l : List Char, (∀ c ∈ l, c ≠ squote) →
      l.map (fun c => if c = squote then '"' else c) = l := by
  intro l
  induction l with
  | nil => intro _; rfl
  | cons c t ih =>
    intro h
    rw [List.map_cons, if_neg (h c (by simp)), ih (fun d hd => h d (by simp [hd]))]

lemma quoteNormalize_id (s : String) (h : ∀ c ∈ s.data, c ≠ squote) :
    quoteNormalize s = s := by
  unfold quoteNormalize
  rw [mapNoQuote s.data h]

/-- Every occurrence of `//` on the line sits inside an open double-quoted
region: at such an index the scanner state records `in_quotes`. -/
def slashesInQuotes (ln : List Char) : Prop :=
  ∀ i, i < ln.length → ln[i]? = some '/' → ln[i + 1]? = some '/' →
    (scanState (ln.take i) (false, false)).2 = true

instance (ln : List Char) : Decidable (slashesInQuotes ln) := by
  unfold slashesInQuotes
  exact Nat.decidableBallLT _ _

lemma findComment_none :
    ∀ (l : List Char) (esc inq : Bool) (i : Nat),
      (∀ l₁ l₂ : List Char, l = l₁ ++ '/' :: '/' :: l₂ →
        (scanState l₁ (esc, inq)).2 = true) →
      findComment l esc inq i = none := by
  intro l
  induction l with
  | nil => intro esc inq i _; rfl
  | cons c rest ih =>
    intro esc inq i H
    cases esc with
    | true =>
      rw [show findComment (c :: rest) true inq i = findComment rest false inq (i + 1) from rfl]
      apply ih
      intro l₁ l₂ hrest
      have h := H (c :: l₁) l₂ (by rw [hrest, List.cons_append])
      simpa [scanState] using h
    | false =>
      by_cases hbs : c = '\\'
      · subst hbs
        rw [show findComment ('\\' :: rest) false inq i = findComment rest true inq (i + 1)
          from rfl]
        apply ih
        intro l₁ l₂ hrest
        have h := H ('\\' :: l₁) l₂ (by rw [hrest, List.cons_append])
        simpa [scanState] using h
      · unfold findComment
        rw [if_neg Bool.false_ne_true, if_neg hbs, if_neg]
        · apply ih
          intro l₁ l₂ hrest
          have h := H (c :: l₁) l₂ (by rw [hrest, List.cons_append])
          have hstate : scanState (c :: l₁) (false, inq) =
              scanState l₁ (false, if c = '"' then !inq else inq) := by
            show (if false = true then scanState l₁ (false, inq)
                else if c = '\\' then scanState l₁ (true, inq)
                else scanState l₁ (false, if c = '"' then !inq else inq)) =
              scanState l₁ (false, if c = '"' then !inq else inq)
            rw [if_neg Bool.false_ne_true, if_neg hbs]
          rwa [hstate] at h
        · rintro ⟨h1, h2, h3⟩
          subst h2
          cases rest with
          | nil => simp at h3
          | cons d rest2 =>
            have hd : d = '/' := by simpa using h3
            subst hd
            have hh := H [] rest2 (by simp)
            simp only [scanState] at hh
            rw [if_neg (by decide : ¬('/' = '"')), hh] at h1
            exact absurd h1 (by decide)

lemma slashes_append {ln : List Char} (H : slashesInQuotes ln) :
    ∀ l₁ l₂ : List Char, ln = l₁ ++ '/' :: '/' :: l₂ →
      (scanState l₁ (false, false)).2 = true := by
  intro l₁ l₂ hline
  have hlen : l₁.length < ln.length := by
    subst hline; simp
  have h1 : ln[l₁.length]? = some '/' := by
    subst hline
    rw [List.getElem?_append_right (le_refl _)]
    simp
  have h2 : ln[l₁.length + 1]? = some '/' := by
    subst hline
    rw [List.getElem?_append_right (by omega)]
    have : l₁.length + 1 - l₁.length = 1 := by omega
    rw [this]
    simp
  have h3 := H l₁.length hlen h1 h2
  have htake : ln.take l₁.length = l₁ := by
    subst hline
    exact List.take_left l₁ _
  rwa [htake] at h3

lemma cleanLine_id {ln : List Char} (H : slashesInQuotes ln) : cleanLine ln = ln := by
  unfold cleanLine
  rw [findComment_none ln false false 0 (slashes_append H)]

lemma splitOnNl_ne_nil : ∀ l : List Char, splitOnNl l ≠ [] := by
  intro l
  induction l with
  | nil => simp [splitOnNl]
  | cons c rest ih =>
    by_cases h : c = '\n'
    · simp [splitOnNl, h]
    · simp only [splitOnNl, h, if_false]
      cases hs : splitOnNl rest with
      | nil => simp
      | cons p ps => simp

lemma joinNl_splitOnNl : ∀ l : List Char, joinNl (splitOnNl l) = l := by
  intro l
  induction l with
  | nil => rfl
  | cons c rest ih =>
    by_cases h : c = '\n'
    · subst h
      show joinNl (splitOnNl ('\n' :: rest)) = '\n' :: rest
      rw [show splitOnNl ('\n' :: rest) = [] :: splitOnNl rest from by
        simp only [splitOnNl, if_true]]
      cases hs : splitOnNl rest with
      | nil => exact absurd hs (splitOnNl_ne_nil rest)
      | cons p ps =>
        rw [hs] at ih
        show joinNl ([] :: p :: ps) = '\n' :: rest
        rw [show joinNl ([] :: p :: ps) = [] ++ '\n' :: joinNl (p :: ps) from rfl]
        rw [List.nil_append, ih]
    · have hsplit : splitOnNl (c :: rest) =
          match splitOnNl rest with
          | [] => [[c]]
          | p :: ps => (c :: p) :: ps := by
        simp only [splitOnNl]
        rw [if_neg h]
      cases hs : splitOnNl rest with
      | nil => exact absurd hs (splitOnNl_ne_nil rest)
      | cons p ps =>
        rw [hs] at hsplit ih
        rw [hsplit]
        cases ps with
        | nil =>
          show joinNl [c :: p] = c :: rest
          rw [show joinNl [c :: p] = c :: p from rfl]
          rw [show joinNl [p] = p from rfl] at ih
          rw [ih]
        | cons q ps2 =>
          show joinNl ((c :: p) :: q :: ps2) = c :: rest
          rw [show joinNl ((c :: p) :: q :: ps2) = (c :: p) ++ '\n' :: joinNl (q :: ps2)
            from rfl]
          rw [show joinNl (p :: q :: ps2) = p ++ '\n' :: joinNl (q :: ps2) from rfl] at ih
          rw [List.cons_append, ih]

lemma stripComments_id (s : String)
    (H : ∀ ln ∈ splitOnNl s.data, slashesInQuotes ln) :
    stripComments s = s := by
  unfold stripComments
  have hmap : (splitOnNl s.data).map cleanLine = splitOnNl s.data := by
    calc (splitOnNl s.data).map cleanLine
        = (splitOnNl s.data).map id :=
          List.map_congr_left (fun ln hl => cleanLine_id (H ln hl))
      _ = splitOnNl s.data := List.map_id _
  rw [hmap, joinNl_splitOnNl]

lemma validate_orders_list_eq (ms : List PyVal) (po : List (String × List String)) :
    validate_orders (Payload.list ms) po =
      (if acceptedMoves po ms ++ fillMissing (coveredLocs po ms) po = [] ∧
          rejectedMoves po ms = []
        then (fallback_orders po, [])
        else if acceptedMoves po ms ++ fillMissing (coveredLocs po ms) po = []
        then (fallback_orders po, rejectedMoves po ms)
        else (acceptedMoves po ms ++ fillMissing (coveredLocs po ms) po,
          rejectedMoves po ms)) := by
  simp only [validate_orders, foldl_validateStep po ms ⟨[], [], []⟩, List.nil_append]

/-- Discriminator used to separate two decode results: the first string of a
decoded orders list. -/
def firstStr : Option JValue → String
  | some (JValue.jarr (JValue.jstr s :: _)) => s
  | _ => ""

/-! ## The claims -/

/-- Claim C1 (counterexample): with
`LegalActionSet = [("PAR", ["A PAR H", "A PAR - BUR"])]` and the proposal list
`["A PAR H", "A PAR - BUR"]`, both proposals are legal and both are kept, so
the location `PAR`, whose legal sequence is non-empty, receives two actions in
`ValidatedOrders`, not exactly one. -/
theorem validate_orders_coverage_cex :
    ¬ (∀ p ∈ [("PAR", ["A PAR H", "A PAR - BUR"])], p.2 ≠ [] →
        countFor
          (validate_orders (Payload.list [PyVal.str "A PAR H", PyVal.str "A PAR - BUR"])
            [("PAR", ["A PAR H", "A PAR - BUR"])]).1
          p.2 = 1) := by decide

lemma coveredLocs_nil_of_accepted_nil {po : List (String × List String)} :
    ∀ {ms : List PyVal}, acceptedMoves po ms = [] → coveredLocs po ms = [] := by
  intro ms
  induction ms with
  | nil => intro _; rfl
  | cons m t ih =>
    intro h
    cases m with
    | str s =>
      cases hl : moveIsLegal s po with
      | true =>
        exfalso
        have he : acceptedMoves po (PyVal.str s :: t) = s :: acceptedMoves po t := by
          simp [acceptedMoves, List.filterMap_cons, hl]
        rw [he] at h
        exact List.cons_ne_nil _ _ h
      | false =>
        have he : acceptedMoves po (PyVal.str s :: t) = acceptedMoves po t := by
          simp [acceptedMoves, List.filterMap_cons, hl]
        have hc : coveredLocs po (PyVal.str s :: t) = coveredLocs po t := by
          simp [coveredLocs, List.filterMap_cons, hl]
        rw [hc]
        exact ih (he ▸ h)
    | other tag =>
      have he : acceptedMoves po (PyVal.other tag :: t) = acceptedMoves po t := by
        simp [acceptedMoves, List.filterMap_cons]
      have hc : coveredLocs po (PyVal.other tag :: t) = coveredLocs po t := by
        simp [coveredLocs, List.filterMap_cons]
      rw [hc]
      exact ih (he ▸ h)

/-- Claim C1 (amended): when no proposal is accepted — for the empty proposal
list and equally when every proposal is rejected — `ValidatedOrders` holds
exactly one synthesized action for each location with a non-empty legal
sequence, in `LegalActionSet` order, and none for a location with an empty
sequence. -/
theorem validate_orders_no_accepted_coverage (ms : List PyVal)
    (po : List (String × List String)) (h : acceptedMoves po ms = []) :
    (validate_orders (Payload.list ms) po).1 =
      (po.filter (fun p => !p.2.isEmpty)).map (fun p => chooseFallback p.2) := by
  rw [validate_orders_list_eq]
  rw [h, coveredLocs_nil_of_accepted_nil h, List.nil_append, fillMissing_nil]
  by_cases hf : fallback_orders po = []
  · by_cases hr : rejectedMoves po ms = []
    · rw [if_pos ⟨hf, hr⟩]
      show fallback_orders po = _
      exact fallback_eq_filter_map po
    · rw [if_neg (fun hc => hr hc.2), if_pos hf]
      show fallback_orders po = _
      exact fallback_eq_filter_map po
  · rw [if_neg (fun hc => hf hc.1), if_neg hf]
    show fallback_orders po = _
    exact fallback_eq_filter_map po

/-- Claim C1 amended-theorem witness: against the concrete scenario set, the
all-rejected proposal list `["A MAR - SPA X"]` accepts nothing and degenerates
to one fallback per non-empty location. -/
theorem validate_orders_no_accepted_coverage_witness :
    acceptedMoves demoPO [PyVal.str "A MAR - SPA X"] = [] ∧
      (validate_orders (Payload.list [PyVal.str "A MAR - SPA X"]) demoPO).1 =
        (demoPO.filter (fun p => !p.2.isEmpty)).map (fun p => chooseFallback p.2) :=
  ⟨by decide,
    validate_orders_no_accepted_coverage [PyVal.str "A MAR - SPA X"] demoPO (by decide)⟩

/-- Claim C2 (confirmed): every action in the `ValidatedOrders` produced by
`_validate_orders` — accepted proposal or synthesized fallback — occurs in the
legal sequence of some location of the `LegalActionSet`. -/
theorem validate_orders_legality (payload : Payload) (po : List (String × List String))
    (a : String) (h : a ∈ (validate_orders payload po).1) :
    ∃ p ∈ po, a ∈ p.2 := by
  cases payload with
  | nonList tag => exact mem_fallback_orders h
  | list ms =>
    rw [validate_orders_list_eq] at h
    by_cases h1 : acceptedMoves po ms ++ fillMissing (coveredLocs po ms) po = [] ∧
        rejectedMoves po ms = []
    · rw [if_pos h1] at h
      exact mem_fallback_orders h
    · rw [if_neg h1] at h
      by_cases h2 : acceptedMoves po ms ++ fillMissing (coveredLocs po ms) po = []
      · rw [if_pos h2] at h
        exact mem_fallback_orders h
      · rw [if_neg h2] at h
        rcases List.mem_append.mp h with ha | hfm
        · exact legal_mem (mem_acceptedMoves ha)
        · exact mem_fillMissing hfm

/-- Claim C2 witness at the concrete scenario set. -/
theorem validate_orders_legality_witness :
    "A PAR H" ∈ (validate_orders (Payload.list []) demoPO).1 ∧
      ∃ p ∈ demoPO, "A PAR H" ∈ p.2 :=
  ⟨by decide, validate_orders_legality (Payload.list []) demoPO "A PAR H" (by decide)⟩

/-- Claim C3 (confirmed): the visibility filter returns exactly the messages
whose sender is the participant, whose recipient is the participant, or whose
recipient is a broadcast marker, in transcript order: it equals `List.filter`
with the visibility condition. -/
theorem get_visible_messages_eq_filter (T : List ChatMsg) (P : String) :
    get_visible_messages_for_power T P =
      T.filter (fun m => decide (visiblePred P m)) :=
  visible_eq_filter T P

/-- Claim C10 (confirmed): both `"ALL"` and `"GLOBAL"` act as broadcast
markers — a message with either recipient is visible to every participant,
regardless of sender. -/
theorem get_visible_messages_broadcast (T : List ChatMsg) (P : String) (m : ChatMsg)
    (hm : m ∈ T) (hb : m.recipient = "ALL" ∨ m.recipient = "GLOBAL") :
    m ∈ get_visible_messages_for_power T P := by
  rw [visible_eq_filter, List.mem_filter]
  refine ⟨hm, ?_⟩
  rcases hb with h | h
  · simp [visiblePred, h]
  · simp [visiblePred, h]

/-- Concrete broadcast message for the C10 witness. -/
def broadcastMsg : ChatMsg := ⟨"A", "GLOBAL", "hello"⟩

/-- Claim C10 witness: a `GLOBAL` message from `A` is visible to the
unrelated power `D`. -/
theorem get_visible_messages_broadcast_witness :
    broadcastMsg ∈ [broadcastMsg] ∧
      (broadcastMsg.recipient = "ALL" ∨ broadcastMsg.recipient = "GLOBAL") ∧
      broadcastMsg ∈ get_visible_messages_for_power [broadcastMsg] "D" :=
  ⟨by decide, by decide,
    get_visible_messages_broadcast [broadcastMsg] "D" broadcastMsg (by decide) (by decide)⟩

/-- Claim C6 (confirmed): the message validator keeps exactly the candidates
that are records with `message_type` and `content` and, when the type is
`private`, also `recipient`; everything else is dropped and extraction order
is preserved: it equals `List.filter` with that acceptance condition. -/
theorem validate_messages_eq_filter (parsed : List PMsg) :
    validate_messages parsed = parsed.filter claimAccept := by
  unfold validate_messages
  rw [foldl_messageStep, List.nil_append]

/-- Claim C4 (counterexample): the payload `[42]` — a list containing a
non-string — is not an ordered sequence of strings, yet `_validate_orders`
does not short-circuit: the non-string entry is reported in
`RejectedActions`, which the claim requires to be empty. -/
theorem validate_orders_nonstring_payload_cex :
    (PyVal.other 0 ∈ [PyVal.other 0] ∧ ∀ s : String, PyVal.other 0 ≠ PyVal.str s) ∧
      validate_orders (Payload.list [PyVal.other 0]) [("PAR", ["A PAR H", "A PAR - BUR"])] ≠
        (fallback_orders [("PAR", ["A PAR H", "A PAR - BUR"])], []) :=
  ⟨⟨by decide, fun s h => PyVal.noConfusion h⟩, by decide⟩

/-- Claim C4 (amended): a payload that is not a sequence at all short-circuits
to the fully synthesized fallback — one hold-preferring action per location
with a non-empty legal sequence — together with an empty `RejectedActions`. -/
theorem validate_orders_nonlist_shortcircuit (tag : Nat) (po : List (String × List String)) :
    validate_orders (Payload.nonList tag) po = (fallback_orders po, []) ∧
      (validate_orders (Payload.nonList tag) po).1 =
        (po.filter (fun p => !p.2.isEmpty)).map (fun p => chooseFallback p.2) :=
  ⟨rfl, fallback_eq_filter_map po⟩

/-- Claim C5 (confirmed): the synthesized fallback for a location is the first
legal action ending in the hold indicator `H` when one exists, else the first
legal action; and validating the empty proposal list always returns the
deterministic `fallback_orders`, so two runs on the same `LegalActionSet`
yield identical `ValidatedOrders`. -/
theorem chooseFallback_rule_and_deterministic :
    (∀ (x : String) (l : List String),
        chooseFallback (x :: l) = ((x :: l).find? (fun o => endsWithH o)).getD x) ∧
      (∀ po : List (String × List String),
        validate_orders (Payload.list []) po = (fallback_orders po, [])) := by
  constructor
  · intro x l
    rw [← filter_head?_eq_find?]
    cases hf : (x :: l).filter (fun o => endsWithH o) with
    | nil =>
      have hc : chooseFallback (x :: l) = x := by unfold chooseFallback; rw [hf]
      rw [hc]
      rfl
    | cons a t =>
      have hc : chooseFallback (x :: l) = a := by unfold chooseFallback; rw [hf]
      rw [hc]
      rfl
  · intro po
    rw [validate_orders_list_eq]
    rw [show acceptedMoves po [] = [] from rfl, show coveredLocs po [] = [] from rfl,
      show rejectedMoves po [] = [] from rfl, List.nil_append, fillMissing_nil]
    by_cases hf : fallback_orders po = []
    · rw [if_pos ⟨hf, rfl⟩]
    · rw [if_neg (fun hc => hf hc.1), if_neg hf]

/-- Claim C9 (confirmed): when at least one proposal is accepted, the returned
`ValidatedOrders` is the accepted proposals in proposal order followed by the
synthesized fallbacks in `LegalActionSet` order, and `RejectedActions` is the
rejected proposals in proposal order. -/
theorem validate_orders_output_ordering (ms : List PyVal) (po : List (String × List String))
    (h : acceptedMoves po ms ≠ []) :
    validate_orders (Payload.list ms) po =
      (acceptedMoves po ms ++ fillMissing (coveredLocs po ms) po, rejectedMoves po ms) := by
  rw [validate_orders_list_eq]
  have hne : acceptedMoves po ms ++ fillMissing (coveredLocs po ms) po ≠ [] := by
    intro hc
    exact h (List.append_eq_nil.mp hc).1
  rw [if_neg (fun hc => hne hc.1), if_neg hne]

/-- Claim C9 witness at the spec's concrete scenario. -/
theorem validate_orders_output_ordering_witness :
    acceptedMoves demoPO [PyVal.str "A PAR - BUR", PyVal.str "A MAR - SPA"] ≠ [] ∧
      validate_orders (Payload.list [PyVal.str "A PAR - BUR", PyVal.str "A MAR - SPA"]) demoPO =
        (acceptedMoves demoPO [PyVal.str "A PAR - BUR", PyVal.str "A MAR - SPA"] ++
            fillMissing
              (coveredLocs demoPO [PyVal.str "A PAR - BUR", PyVal.str "A MAR - SPA"]) demoPO,
          rejectedMoves demoPO [PyVal.str "A PAR - BUR", PyVal.str "A MAR - SPA"]) :=
  ⟨by decide, validate_orders_output_ordering _ _ (by decide)⟩

/-- A single-quote as a one-character string, for building test blocks. -/
def apos : String := String.mk [squote]

/-- Block that is valid JSON except for one trailing comma before the closing
brace, with a string value containing a single quote. -/
def commaBlock : String := "\x7b\"orders\": [\"a" ++ apos ++ "," ++ apos ++ "b\"],\x7d"

/-- The same block with the trailing comma removed. -/
def commaFreeBlock : String := "\x7b\"orders\": [\"a" ++ apos ++ "," ++ apos ++ "b\"]\x7d"

/-- Claim C7 (counterexample): `commaBlock` is `commaFreeBlock` plus one
trailing comma and `commaFreeBlock` is valid JSON, yet the two decode to
different `ActionList`s — the repair pass that strips the comma also rewrites
every single quote to a double quote, splitting the string value
`a','b` into `a` and `b`. -/
theorem decode_orders_trailing_comma_cex :
    stripTrailingCommas commaBlock = commaFreeBlock ∧
      jsonParse commaBlock = none ∧
      jsonParse commaFreeBlock =
        some (JValue.jobj
          [("orders", JValue.jarr [JValue.jstr ("a" ++ apos ++ "," ++ apos ++ "b")])]) ∧
      decode_orders commaFreeBlock =
        some (JValue.jarr [JValue.jstr ("a" ++ apos ++ "," ++ apos ++ "b")]) ∧
      decode_orders commaBlock = some (JValue.jarr [JValue.jstr "a", JValue.jstr "b"]) ∧
      decode_orders commaBlock ≠ decode_orders commaFreeBlock :=
  ⟨rfl, rfl, rfl, rfl, rfl, fun h => absurd (congrArg firstStr h) (by decide)⟩

/-- Claim C7 (amended): when the captured block fails direct decode, its
comma-stripped version decodes, and that comma-free text contains no single
quote, the block decodes to exactly what the comma-free text decodes to. -/
theorem decode_orders_trailing_comma_tolerance (t : String) (v : JValue)
    (h1 : jsonParse t = none)
    (h2 : jsonParse (stripTrailingCommas t) = some v)
    (h3 : ∀ c ∈ (stripTrailingCommas t).data, c ≠ squote) :
    decode_orders t = decode_orders (stripTrailingCommas t) := by
  have hq : quoteNormalize (stripTrailingCommas t) = stripTrailingCommas t :=
    quoteNormalize_id _ h3
  unfold decode_orders
  rw [h1, hq, h2]

/-- Orders block with a trailing comma and no single quote. -/
def commaTolerantBlock : String := "\x7b\"orders\": [\"A PAR H\",]\x7d"

/-- Claim C7 amended-theorem witness on a concrete block. -/
theorem decode_orders_trailing_comma_tolerance_witness :
    jsonParse commaTolerantBlock = none ∧
      jsonParse (stripTrailingCommas commaTolerantBlock) =
        some (JValue.jobj [("orders", JValue.jarr [JValue.jstr "A PAR H"])]) ∧
      decode_orders commaTolerantBlock =
        decode_orders (stripTrailingCommas commaTolerantBlock) :=
  ⟨rfl, rfl,
    decode_orders_trailing_comma_tolerance commaTolerantBlock
      (JValue.jobj [("orders", JValue.jarr [JValue.jstr "A PAR H"])]) rfl rfl (by decide)⟩

/-- Block that reaches the comment-stripping pass (direct decode and repair
both fail) whose string value holds the marker `//` and a comma before a
closing bracket. -/
def trickyBlock : String := "\x7b\"orders\": [\"it" ++ apos ++ "s a//b ,]\"],\x7d"

/-- Claim C8 (counterexample): `trickyBlock` reaches the comment-stripping
pass with `//` inside a double-quoted string value; the comment scan leaves
the block unchanged, but the pass's trailing-comma re-strip rewrites the
`,]` inside the string, so the value `it's a//b ,]` decodes as
`it's a//b ]` — it does not survive intact in the decoded result. -/
theorem stripComments_marker_in_string_cex :
    jsonParse trickyBlock = none ∧
      jsonParse (quoteNormalize (stripTrailingCommas trickyBlock)) = none ∧
      (∀ ln ∈ splitOnNl trickyBlock.data, slashesInQuotes ln) ∧
      stripComments trickyBlock = trickyBlock ∧
      decode_orders trickyBlock =
        some (JValue.jarr [JValue.jstr ("it" ++ apos ++ "s a//b ]")]) ∧
      ("it" ++ apos ++ "s a//b ]") ≠ ("it" ++ apos ++ "s a//b ,]") :=
  ⟨rfl, rfl, by decide, rfl, rfl, by decide⟩

/-- Claim C8 (amended): the comment-removal scan never mistakes a `//` inside
an open double-quoted region for a comment: a block in which every `//` lies
inside quotes passes through comment removal unchanged, so no string is
truncated by it. -/
theorem stripComments_marker_in_string_id (s : String)
    (H : ∀ ln ∈ splitOnNl s.data, slashesInQuotes ln) :
    stripComments s = s :=
  stripComments_id s H

/-- Orders block whose only `//` lies inside a string value. -/
def slashBlock : String := "\x7b\"orders\": [\"go to http://example\"]\x7d"

/-- Claim C8 amended-theorem witness on a concrete block. -/
theorem stripComments_marker_in_string_id_witness :
    (∀ ln ∈ splitOnNl slashBlock.data, slashesInQuotes ln) ∧
      stripComments slashBlock = slashBlock :=
  ⟨by decide, stripComments_marker_in_string_id slashBlock (by decide)⟩
